import Mathlib

/-!
Shallow embedding of `src/main.py` (a Goldwasser–Micali cryptosystem
implementation) in Lean 4, together with proofs settling the claims of the
specification against the code.

Conventions of the embedding:
* Python big integers become `ℕ` (every value the program manipulates in the
  embedded fragments is nonnegative); the running Jacobi sign `t` is `ℤ`.
* A `while` loop becomes a fuel-indexed structural recursion whose fuel is
  provably sufficient on every reachable input; the Python-level one-step
  unfolding equations are recovered as lemmas below.
* A raised exception (the `assert` in `jacobi`) becomes `Option.none`.
* A call to the global randomness source becomes an explicit argument,
  constrained by a `_draws` predicate describing exactly the set of values
  the Python call can produce.
-/

namespace GM

/-- Modelled from the spec: the module `constants` (file `constants.py`) is not
among the repository sources; per §4.2 it provides `first_primes_list`,
"a fixed table of small primes (the first several hundred primes)".
We model it as the 303 primes below 2000. -/
def first_primes_list : List ℕ :=
  [2, 3, 5, 7, 11, 13, 17, 19, 23, 29, 31, 37, 41, 43, 47, 53, 59, 61, 67, 71,
   73, 79, 83, 89, 97, 101, 103, 107, 109, 113, 127, 131, 137, 139, 149, 151,
   157, 163, 167, 173, 179, 181, 191, 193, 197, 199, 211, 223, 227, 229, 233,
   239, 241, 251, 257, 263, 269, 271, 277, 281, 283, 293, 307, 311, 313, 317,
   331, 337, 347, 349, 353, 359, 367, 373, 379, 383, 389, 397, 401, 409, 419,
   421, 431, 433, 439, 443, 449, 457, 461, 463, 467, 479, 487, 491, 499, 503,
   509, 521, 523, 541, 547, 557, 563, 569, 571, 577, 587, 593, 599, 601, 607,
   613, 617, 619, 631, 641, 643, 647, 653, 659, 661, 673, 677, 683, 691, 701,
   709, 719, 727, 733, 739, 743, 751, 757, 761, 769, 773, 787, 797, 809, 811,
   821, 823, 827, 829, 839, 853, 857, 859, 863, 877, 881, 883, 887, 907, 911,
   919, 929, 937, 941, 947, 953, 967, 971, 977, 983, 991, 997, 1009, 1013,
   1019, 1021, 1031, 1033, 1039, 1049, 1051, 1061, 1063, 1069, 1087, 1091,
   1093, 1097, 1103, 1109, 1117, 1123, 1129, 1151, 1153, 1163, 1171, 1181,
   1187, 1193, 1201, 1213, 1217, 1223, 1229, 1231, 1237, 1249, 1259, 1277,
   1279, 1283, 1289, 1291, 1297, 1301, 1303, 1307, 1319, 1321, 1327, 1361,
   1367, 1373, 1381, 1399, 1409, 1423, 1427, 1429, 1433, 1439, 1447, 1451,
   1453, 1459, 1471, 1481, 1483, 1487, 1489, 1493, 1499, 1511, 1523, 1531,
   1543, 1549, 1553, 1559, 1567, 1571, 1579, 1583, 1597, 1601, 1607, 1609,
   1613, 1619, 1621, 1627, 1637, 1657, 1663, 1667, 1669, 1693, 1697, 1699,
   1709, 1721, 1723, 1733, 1741, 1747, 1753, 1759, 1777, 1783, 1787, 1789,
   1801, 1811, 1823, 1831, 1847, 1861, 1867, 1871, 1873, 1877, 1879, 1889,
   1901, 1907, 1913, 1931, 1933, 1949, 1951, 1973, 1979, 1987, 1993, 1997,
   1999]

/-- Inner `while a % 2 == 0` loop of `jacobi` (src/main.py lines 41-46):
halve `a`, flipping the sign `t` whenever `p % 8` is 3 or 5.  The fuel
argument makes the recursion structural; fuel `a` is sufficient whenever
`a ≠ 0` (the only situation in which the Python loop terminates). -/
def stripTwosAux : ℕ → ℕ → ℕ → ℤ → ℕ × ℤ
  | 0, a, _, t => (a, t)
  | fuel + 1, a, p, t =>
    if a % 2 = 0 then
      stripTwosAux fuel (a / 2) p (if p % 8 = 3 ∨ p % 8 = 5 then -t else t)
    else (a, t)

/-- The inner loop of `jacobi`, entered with value `a`, modulus `p`, sign `t`. -/
def stripTwos (a p : ℕ) (t : ℤ) : ℕ × ℤ := stripTwosAux a a p t

/-- Outer `while a != 0` loop of `jacobi` (src/main.py lines 40-52) followed by
the final `return` (lines 53-56).  One iteration: strip factors of two from
`a`, swap `a` and `p` flipping `t` when both are `3 mod 4`, then reduce
`a %= p`.  Fuel `a + 1` is sufficient because the first component strictly
decreases. -/
def jacobiLoopAux : ℕ → ℕ → ℕ → ℤ → ℤ
  | 0, _, p, t => if p = 1 then t else 0
  | fuel + 1, a, p, t =>
    if a = 0 then (if p = 1 then t else 0)
    else
      jacobiLoopAux fuel (p % (stripTwos a p t).1) (stripTwos a p t).1
        (if p % 4 = 3 ∧ (stripTwos a p t).1 % 4 = 3 then -(stripTwos a p t).2
         else (stripTwos a p t).2)

/-- The outer loop of `jacobi` together with the final `return`. -/
def jacobiLoop (a p : ℕ) (t : ℤ) : ℤ := jacobiLoopAux (a + 1) a p t

/-- `jacobi(a, p)` from src/main.py lines 32-56: first `a %= p`, then
`assert p > a > 0 and p % 2 == 1` (`none` models the raised
`AssertionError`), then the reciprocity loop starting from `t = 1`. -/
def jacobi (a p : ℕ) : Option ℤ :=
  if p > a % p ∧ a % p > 0 ∧ p % 2 = 1 then some (jacobiLoop (a % p) p 1)
  else none

/-- `generate_pseudo_square(n, p, q)` (src/main.py lines 59-66): the values
the draw `a = random.randint(2, n - 1)` can produce (`randint` is inclusive
at both ends). -/
def generate_pseudo_square_draws (n a : ℕ) : Prop := 2 ≤ a ∧ a ≤ n - 1

/-- The acceptance condition of the rejection loop in
`generate_pseudo_square`: `jacobi(a, p) == jacobi(a, q) == -1 and
jacobi(a, n) == 1`. -/
def generate_pseudo_square_accepts (n p q a : ℕ) : Prop :=
  jacobi a p = some (-1) ∧ jacobi a q = some (-1) ∧ jacobi a n = some 1

/-- The values `generate_pseudo_square(n, p, q)` can return: a drawable value
passing the acceptance test. -/
def generate_pseudo_square_outputs (n p q a : ℕ) : Prop :=
  generate_pseudo_square_draws n a ∧ generate_pseudo_square_accepts n p q a

/-- `get_lowlevel_prime(n)` (src/main.py lines 69-79): the values the draw
`pc = random.randrange(2 ** (n - 1) + 1, 2 ** n - 1)` can produce
(`randrange` excludes its upper bound). -/
def get_lowlevel_prime_draws (n pc : ℕ) : Prop :=
  2 ^ (n - 1) + 1 ≤ pc ∧ pc < 2 ^ n - 1

/-- The `for divisor in first_primes_list … else return pc` sieve in
`get_lowlevel_prime`: the candidate is rejected iff some table entry divides
it and the entry's square does not exceed it. -/
def sieve_rejects (pc : ℕ) : Prop :=
  ∃ d ∈ first_primes_list, pc % d = 0 ∧ d ^ 2 ≤ pc

/-- The sieve without the divisor-squared guard, following the spec's words in
§9 ("it can be simplified to unconditional trial division against the
table"); used only to compare with `sieve_rejects` for claim C9. -/
def sieve_rejects_unguarded (pc : ℕ) : Prop :=
  ∃ d ∈ first_primes_list, pc % d = 0

/-- The values `get_lowlevel_prime(n)` can return: a drawable candidate the
sieve does not reject. -/
def get_lowlevel_prime_outputs (n pc : ℕ) : Prop :=
  get_lowlevel_prime_draws n pc ∧ ¬ sieve_rejects pc

/-- The `while ec % 2 == 0` decomposition loop of `test_MillerRabin`
(src/main.py lines 91-94), with fuel; returns `(max_2_pow, ec)`.  Fuel `m`
is sufficient whenever `m ≠ 0` (the only situation in which the Python loop
terminates). -/
def decomposeAux : ℕ → ℕ → ℕ × ℕ
  | 0, m => (0, m)
  | fuel + 1, m =>
    if m % 2 = 0 then
      let r := decomposeAux fuel (m / 2)
      (r.1 + 1, r.2)
    else (0, m)

/-- Decomposition of `candidate - 1` as `2 ^ max_2_pow * ec` with `ec` odd. -/
def decompose (m : ℕ) : ℕ × ℕ := decomposeAux m m

/-- The inner `is_composite(round_tester)` of `test_MillerRabin`
(src/main.py lines 100-106); `pow(b, e, m)` is `b ^ e % m`. -/
def is_composite (candidate ec max_2_pow round_tester : ℕ) : Bool :=
  if round_tester ^ ec % candidate = 1 then false
  else if (List.range max_2_pow).any
      (fun i => round_tester ^ (2 ^ i * ec) % candidate == candidate - 1) then
    false
  else true

/-- `test_MillerRabin(candidate)` (src/main.py lines 82-114) as a function of
the `number_trials = 20` drawn round testers: `True` iff no drawn tester
certifies compositeness. -/
def test_MillerRabin (candidate : ℕ) (round_testers : List ℕ) : Bool :=
  round_testers.all fun w =>
    ! is_composite candidate (decompose (candidate - 1)).2
        (decompose (candidate - 1)).1 w

/-- The round testers `random.randrange(2, candidate)` drawn in the 20 rounds
of `test_MillerRabin`. -/
def mr_draws (candidate : ℕ) (ws : List ℕ) : Prop :=
  ws.length = 20 ∧ ∀ w ∈ ws, 2 ≤ w ∧ w < candidate

/-- `get_prime(l)` (src/main.py lines 117-124).  Note the body calls
`get_lowlevel_prime(prime_len)` with the global `prime_len`, not with its own
parameter `l`; at the program's only call sites the argument equals
`prime_len`, so we model the set of possible return values as a function of
that global: a sieve survivor of `prime_len` bits on which some draw of the
20 round testers makes `test_MillerRabin` return `True`. -/
def get_prime_outputs (prime_len pc : ℕ) : Prop :=
  get_lowlevel_prime_outputs prime_len pc ∧
  ∃ ws, mr_draws pc ws ∧ test_MillerRabin pc ws = true

/-- One iteration of the encryption loop in `__main__` (src/main.py lines
143-151): `yi = ((bin_z ** bin_xi) * rand_a_Zn) % n` with
`rand_a_Zn = a ** 2` for the mask draw `a`.  (The `int(bin(·)[2:], 2)`
round trips on `z` and on `a ** 2` are identities and are elided.) -/
def encrypt_bit (n z x a : ℕ) : ℕ := z ^ x * a ^ 2 % n

/-- The masking draw `a = random.randint(1, n)` of the encryption loop:
`randint` includes both endpoints. -/
def mask_draws (n a : ℕ) : Prop := 1 ≤ a ∧ a ≤ n

/-- The whole encryption loop: one fresh mask per plaintext bit. -/
def encrypt_bits (n z : ℕ) (xs as : List ℕ) : List ℕ :=
  List.zipWith (fun x a => encrypt_bit n z x a) xs as

/-- The decryption loop in `__main__` (src/main.py lines 155-160).  `none`
models the `AssertionError` raised inside `jacobi` when a residue reduces to
`0 mod p`; a returned symbol other than `1` and `-1` appends nothing, since
the Python loop has no `else` branch. -/
def decrypt_bits (p : ℕ) : List ℕ → Option (List ℕ)
  | [] => some []
  | y :: ys =>
    match jacobi y p with
    | none => none
    | some j =>
      match decrypt_bits p ys with
      | none => none
      | some rest =>
        if j = 1 then some (0 :: rest)
        else if j = -1 then some (1 :: rest)
        else some rest

instance (n a : ℕ) : Decidable (generate_pseudo_square_draws n a) := by
  unfold generate_pseudo_square_draws; infer_instance

instance (n p q a : ℕ) : Decidable (generate_pseudo_square_accepts n p q a) := by
  unfold generate_pseudo_square_accepts; infer_instance

instance (n p q a : ℕ) : Decidable (generate_pseudo_square_outputs n p q a) := by
  unfold generate_pseudo_square_outputs; infer_instance

instance (n pc : ℕ) : Decidable (get_lowlevel_prime_draws n pc) := by
  unfold get_lowlevel_prime_draws; infer_instance

instance (pc : ℕ) : Decidable (sieve_rejects pc) := by
  unfold sieve_rejects; infer_instance

instance (pc : ℕ) : Decidable (sieve_rejects_unguarded pc) := by
  unfold sieve_rejects_unguarded; infer_instance

instance (n pc : ℕ) : Decidable (get_lowlevel_prime_outputs n pc) := by
  unfold get_lowlevel_prime_outputs; infer_instance

instance (candidate : ℕ) (ws : List ℕ) : Decidable (mr_draws candidate ws) := by
  unfold mr_draws; infer_instance

instance (n a : ℕ) : Decidable (mask_draws n a) := by
  unfold mask_draws; infer_instance

/-! ### One-step unfolding equations for the fuel-indexed loops -/

lemma stripTwosAux_succ (fuel a p : ℕ) (t : ℤ) :
    stripTwosAux (fuel + 1) a p t =
      if a % 2 = 0 then
        stripTwosAux fuel (a / 2) p (if p % 8 = 3 ∨ p % 8 = 5 then -t else t)
      else (a, t) := rfl

lemma jacobiLoopAux_succ (fuel a p : ℕ) (t : ℤ) :
    jacobiLoopAux (fuel + 1) a p t =
      if a = 0 then (if p = 1 then t else 0)
      else
        jacobiLoopAux fuel (p % (stripTwos a p t).1) (stripTwos a p t).1
          (if p % 4 = 3 ∧ (stripTwos a p t).1 % 4 = 3 then -(stripTwos a p t).2
           else (stripTwos a p t).2) := rfl

lemma decomposeAux_succ (fuel m : ℕ) :
    decomposeAux (fuel + 1) m =
      if m % 2 = 0 then
        ((decomposeAux fuel (m / 2)).1 + 1, (decomposeAux fuel (m / 2)).2)
      else (0, m) := rfl

/-- The fuel of `stripTwosAux` is irrelevant as long as it is at least `a`
(and `a ≠ 0`, the regime in which the Python loop terminates). -/
lemma stripTwosAux_congr :
    ∀ f g a p t, a ≠ 0 → a ≤ f → a ≤ g →
      stripTwosAux f a p t = stripTwosAux g a p t := by
  intro f
  induction f with
  | zero => intro g a p t h0 hf _; omega
  | succ f ih =>
    intro g a p t h0 hf hg
    obtain ⟨g, rfl⟩ : ∃ g', g = g' + 1 := ⟨g - 1, by omega⟩
    rw [stripTwosAux_succ, stripTwosAux_succ]
    by_cases h2 : a % 2 = 0
    · rw [if_pos h2, if_pos h2]
      exact ih g (a / 2) p _ (by omega) (by omega) (by omega)
    · rw [if_neg h2, if_neg h2]

/-- Python-level step: an even nonzero `a` is halved with the `p % 8` flip. -/
lemma stripTwos_even (a p : ℕ) (t : ℤ) (h0 : a ≠ 0) (h2 : a % 2 = 0) :
    stripTwos a p t =
      stripTwos (a / 2) p (if p % 8 = 3 ∨ p % 8 = 5 then -t else t) := by
  obtain ⟨a, rfl⟩ : ∃ a', a = a' + 1 := ⟨a - 1, by omega⟩
  unfold stripTwos
  rw [stripTwosAux_succ, if_pos h2]
  exact stripTwosAux_congr a ((a + 1) / 2) ((a + 1) / 2) p _
    (by omega) (by omega) le_rfl

/-- Python-level exit: the inner loop stops at an odd `a`. -/
lemma stripTwos_odd (a p : ℕ) (t : ℤ) (h1 : a % 2 = 1) :
    stripTwos a p t = (a, t) := by
  obtain ⟨a, rfl⟩ : ∃ a', a = a' + 1 := ⟨a - 1, by omega⟩
  unfold stripTwos
  rw [stripTwosAux_succ, if_neg (by omega)]

/-- Structural facts about the inner loop's result: odd, positive, at most `a`. -/
lemma stripTwos_fst :
    ∀ a, a ≠ 0 → ∀ (p : ℕ) (t : ℤ),
      (stripTwos a p t).1 % 2 = 1 ∧ (stripTwos a p t).1 ≤ a ∧
        (stripTwos a p t).1 ≠ 0 := by
  intro a
  induction a using Nat.strong_induction_on with
  | _ a ih =>
    intro h0 p t
    by_cases h2 : a % 2 = 0
    · rw [stripTwos_even a p t h0 h2]
      have h := ih (a / 2) (by omega) (by omega) p
        (if p % 8 = 3 ∨ p % 8 = 5 then -t else t)
      exact ⟨h.1, by omega, h.2.2⟩
    · rw [stripTwos_odd a p t (by omega)]
      exact ⟨by omega, le_rfl, h0⟩

/-- The fuel of `jacobiLoopAux` is irrelevant as long as it exceeds `a`. -/
lemma jacobiLoopAux_congr :
    ∀ a f g p t, a < f → a < g →
      jacobiLoopAux f a p t = jacobiLoopAux g a p t := by
  intro a
  induction a using Nat.strong_induction_on with
  | _ a ih =>
    intro f g p t hf hg
    obtain ⟨f, rfl⟩ : ∃ f', f = f' + 1 := ⟨f - 1, by omega⟩
    obtain ⟨g, rfl⟩ : ∃ g', g = g' + 1 := ⟨g - 1, by omega⟩
    rw [jacobiLoopAux_succ, jacobiLoopAux_succ]
    by_cases h0 : a = 0
    · rw [if_pos h0, if_pos h0]
    · rw [if_neg h0, if_neg h0]
      have hs := stripTwos_fst a h0 p t
      have hm : p % (stripTwos a p t).1 < (stripTwos a p t).1 :=
        Nat.mod_lt p (by omega)
      exact ih (p % (stripTwos a p t).1) (by omega) f g _ _ (by omega) (by omega)

/-- Python-level exit of the outer loop: `a = 0` returns `t` iff `p == 1`. -/
lemma jacobiLoop_zero (p : ℕ) (t : ℤ) :
    jacobiLoop 0 p t = if p = 1 then t else 0 := rfl

/-- Python-level step of the outer loop: strip twos, swap with the mod-4 flip,
reduce. -/
lemma jacobiLoop_step (a p : ℕ) (t : ℤ) (h0 : a ≠ 0) :
    jacobiLoop a p t =
      jacobiLoop (p % (stripTwos a p t).1) (stripTwos a p t).1
        (if p % 4 = 3 ∧ (stripTwos a p t).1 % 4 = 3 then -(stripTwos a p t).2
         else (stripTwos a p t).2) := by
  unfold jacobiLoop
  rw [jacobiLoopAux_succ, if_neg h0]
  have hs := stripTwos_fst a h0 p t
  have hm : p % (stripTwos a p t).1 < (stripTwos a p t).1 :=
    Nat.mod_lt p (by omega)
  exact jacobiLoopAux_congr _ _ _ _ _ (by omega) (by omega)

/-! ### Correctness of the `jacobi` loop against Mathlib's `jacobiSym` -/

/-- The `p % 8` sign flip of the inner loop is multiplication by `χ₈ p`,
i.e. by `jacobiSym 2 p`, for odd `p`. -/
lemma flip_eq_chi8 (p : ℕ) (hp : p % 2 = 1) (t : ℤ) :
    (if p % 8 = 3 ∨ p % 8 = 5 then -t else t) = ZMod.χ₈ (p : ZMod 8) * t := by
  have h8 : p % 8 % 2 = 1 := by
    rw [Nat.mod_mod_of_dvd p (by norm_num : (2 : ℕ) ∣ 8)]; exact hp
  rw [ZMod.χ₈_nat_eq_if_mod_eight]
  rcases (by omega : p % 8 = 1 ∨ p % 8 = 3 ∨ p % 8 = 5 ∨ p % 8 = 7) with
    h | h | h | h <;> simp [h, hp]

/-- The inner loop preserves `t * jacobiSym a p` in the sense that the sign it
accumulates pays exactly for the stripped factors of two. -/
lemma stripTwos_jacobi (p : ℕ) (hp : p % 2 = 1) :
    ∀ a, a ≠ 0 → ∀ t : ℤ,
      (stripTwos a p t).2 * jacobiSym ((stripTwos a p t).1 : ℤ) p =
        t * jacobiSym (a : ℤ) p := by
  intro a
  induction a using Nat.strong_induction_on with
  | _ a ih =>
    intro h0 t
    by_cases h2 : a % 2 = 0
    · obtain ⟨b, rfl⟩ : ∃ b, a = 2 * b := ⟨a / 2, by omega⟩
      have hb0 : b ≠ 0 := by omega
      rw [stripTwos_even (2 * b) p t h0 h2]
      have hdiv : 2 * b / 2 = b := by omega
      rw [hdiv]
      rw [ih b (by omega) hb0 _]
      have hcast : ((2 * b : ℕ) : ℤ) = 2 * (b : ℤ) := by push_cast; ring
      rw [hcast, jacobiSym.mul_left, flip_eq_chi8 p hp t,
        jacobiSym.at_two (Nat.odd_iff.mpr hp)]
      ring
    · rw [stripTwos_odd a p t (by omega)]

/-- Main loop invariant: for odd modulus `p` and `a < p`, the outer loop
computes `t * jacobiSym a p`. -/
lemma jacobiLoop_eq_jacobiSym :
    ∀ a (p : ℕ) (t : ℤ), p % 2 = 1 → a < p →
      jacobiLoop a p t = t * jacobiSym (a : ℤ) p := by
  intro a
  induction a using Nat.strong_induction_on with
  | _ a ih =>
    intro p t hp hap
    by_cases h0 : a = 0
    · subst h0
      rw [jacobiLoop_zero]
      by_cases hp1 : p = 1
      · rw [if_pos hp1, hp1]
        simp [jacobiSym.one_right]
      · rw [if_neg hp1, Nat.cast_zero, jacobiSym.zero_left (by omega : 1 < p),
          mul_zero]
    · have hs := stripTwos_fst a h0 p t
      have hs1 : 0 < (stripTwos a p t).1 := by omega
      have hm : p % (stripTwos a p t).1 < (stripTwos a p t).1 := Nat.mod_lt p hs1
      rw [jacobiLoop_step a p t h0]
      rw [ih (p % (stripTwos a p t).1) (by omega) (stripTwos a p t).1 _ hs.1 hm]
      rw [← stripTwos_jacobi p hp a h0 t]
      have hcast : ((p % (stripTwos a p t).1 : ℕ) : ℤ) =
          (p : ℤ) % ((stripTwos a p t).1 : ℤ) := by push_cast; ring
      rw [hcast, ← jacobiSym.mod_left]
      have hrecip := jacobiSym.quadratic_reciprocity_if hs.1 hp
      by_cases h34 : p % 4 = 3 ∧ (stripTwos a p t).1 % 4 = 3
      · rw [if_pos h34, ← hrecip, if_pos ⟨h34.2, h34.1⟩]
        ring
      · rw [if_neg h34, ← hrecip, if_neg (fun h => h34 ⟨h.2, h.1⟩)]

/-- On every input passing its assertion, the program's `jacobi` computes the
mathematical Jacobi symbol of `a` over `p`. -/
lemma jacobi_eq_jacobiSym (a p : ℕ) (hp1 : 1 < p) (hp2 : p % 2 = 1)
    (ha : a % p ≠ 0) : jacobi a p = some (jacobiSym (a : ℤ) p) := by
  have hr : a % p < p := Nat.mod_lt a (by omega)
  unfold jacobi
  rw [if_pos ⟨hr, by omega, hp2⟩,
    jacobiLoop_eq_jacobiSym (a % p) p 1 hp2 hr, one_mul]
  congr 1
  rw [jacobiSym.mod_left (a : ℤ) p]
  congr 1

/-! ### Miller–Rabin: the decomposition loop and the primality argument -/

lemma decomposeAux_spec :
    ∀ f m, m ≠ 0 → m ≤ f →
      2 ^ (decomposeAux f m).1 * (decomposeAux f m).2 = m ∧
        (decomposeAux f m).2 % 2 = 1 := by
  intro f
  induction f with
  | zero => intro m h0 hf; omega
  | succ f ih =>
    intro m h0 hf
    rw [decomposeAux_succ]
    by_cases h2 : m % 2 = 0
    · rw [if_pos h2]
      have hm := ih (m / 2) (by omega) (by omega)
      refine ⟨?_, hm.2⟩
      calc 2 ^ ((decomposeAux f (m / 2)).1 + 1) * (decomposeAux f (m / 2)).2
          = 2 * (2 ^ (decomposeAux f (m / 2)).1 * (decomposeAux f (m / 2)).2) := by
            ring
        _ = 2 * (m / 2) := by rw [hm.1]
        _ = m := by omega
    · rw [if_neg h2]
      exact ⟨by simp, by omega⟩

/-- The decomposition computed at the top of `test_MillerRabin` recomposes to
`candidate - 1` with an odd cofactor; in particular the `assert` on
src/main.py line 97 always passes. -/
lemma decompose_spec (m : ℕ) (h0 : m ≠ 0) :
    2 ^ (decompose m).1 * (decompose m).2 = m ∧ (decompose m).2 % 2 = 1 :=
  decomposeAux_spec m m h0 le_rfl

/-- Bridge between Python's `pow(w, e, n) == 1` and `ZMod n` arithmetic. -/
lemma pow_mod_eq_one_iff (w e n : ℕ) (hn : 1 < n) :
    w ^ e % n = 1 ↔ (w : ZMod n) ^ e = 1 := by
  haveI : Fact (1 < n) := ⟨hn⟩
  constructor
  · intro h
    have hcast : ((w ^ e % n : ℕ) : ZMod n) = ((1 : ℕ) : ZMod n) := by rw [h]
    rwa [ZMod.natCast_mod, Nat.cast_pow, Nat.cast_one] at hcast
  · intro h
    have h1 : ((w ^ e % n : ℕ) : ZMod n) = 1 := by
      rw [ZMod.natCast_mod, Nat.cast_pow]; exact h
    have h2 := ZMod.val_cast_of_lt (Nat.mod_lt (w ^ e) (by omega : 0 < n))
    rw [h1, ZMod.val_one n] at h2
    exact h2.symm

/-- Bridge between Python's `pow(w, e, n) == n - 1` and `-1` in `ZMod n`. -/
lemma pow_mod_eq_sub_one_iff (w e n : ℕ) (hn : 1 < n) :
    w ^ e % n = n - 1 ↔ (w : ZMod n) ^ e = -1 := by
  have hcast : ((n - 1 : ℕ) : ZMod n) = -1 := by
    rw [Nat.cast_sub (by omega : 1 ≤ n), ZMod.natCast_self, Nat.cast_one,
      zero_sub]
  constructor
  · intro h
    have h1 : ((w ^ e % n : ℕ) : ZMod n) = ((n - 1 : ℕ) : ZMod n) := by rw [h]
    rwa [ZMod.natCast_mod, Nat.cast_pow, hcast] at h1
  · intro h
    have h1 : ((w ^ e % n : ℕ) : ZMod n) = ((n - 1 : ℕ) : ZMod n) := by
      rw [ZMod.natCast_mod, Nat.cast_pow, hcast]; exact h
    have h2 := ZMod.val_cast_of_lt (Nat.mod_lt (w ^ e) (by omega : 0 < n))
    have h3 := ZMod.val_cast_of_lt (show n - 1 < n by omega)
    rw [h1, h3] at h2
    exact h2.symm

/-- Square-root descent: if `x ^ (2 ^ s * d) = 1` in the field `ZMod n`, then
either `x ^ d = 1` or some intermediate power is `-1`. -/
lemma mr_descent {n : ℕ} [Fact n.Prime] (x : ZMod n) (d : ℕ) :
    ∀ s, x ^ (2 ^ s * d) = 1 →
      x ^ d = 1 ∨ ∃ i < s, x ^ (2 ^ i * d) = -1 := by
  intro s
  induction s with
  | zero => intro h; left; simpa using h
  | succ s ih =>
    intro h
    have hexp : 2 ^ s * d + 2 ^ s * d = 2 ^ (s + 1) * d := by rw [pow_succ]; ring
    have hsq : x ^ (2 ^ s * d) * x ^ (2 ^ s * d) = 1 := by
      rw [← pow_add, hexp]; exact h
    rcases mul_self_eq_one_iff.mp hsq with h1 | h1
    · rcases ih h1 with h2 | ⟨i, hi, h2⟩
      · exact Or.inl h2
      · exact Or.inr ⟨i, by omega, h2⟩
    · exact Or.inr ⟨s, by omega, h1⟩

/-- A prime `candidate` is never certified composite: `is_composite` returns
`false` for every round tester in `[2, candidate)`. -/
lemma is_composite_false_of_prime (n : ℕ) (hp : n.Prime) (h2 : 2 < n)
    (w : ℕ) (hw2 : 2 ≤ w) (hwn : w < n) :
    is_composite n (decompose (n - 1)).2 (decompose (n - 1)).1 w = false := by
  haveI := Fact.mk hp
  obtain ⟨hdec, -⟩ := decompose_spec (n - 1) (by omega)
  have hx0 : (w : ZMod n) ≠ 0 := by
    rw [Ne, ZMod.natCast_zmod_eq_zero_iff_dvd]
    intro hdvd
    have := Nat.le_of_dvd (by omega) hdvd
    omega
  have hfermat : (w : ZMod n) ^ (n - 1) = 1 :=
    ZMod.pow_card_sub_one_eq_one hx0
  rw [← hdec] at hfermat
  unfold is_composite
  rcases mr_descent (w : ZMod n) (decompose (n - 1)).2 (decompose (n - 1)).1
      hfermat with h | ⟨i, hi, h⟩
  · rw [if_pos ((pow_mod_eq_one_iff w _ n (by omega)).mpr h)]
  · by_cases hc1 : w ^ (decompose (n - 1)).2 % n = 1
    · rw [if_pos hc1]
    · rw [if_neg hc1, if_pos ?hany]
      case hany =>
        rw [List.any_eq_true]
        refine ⟨i, List.mem_range.mpr hi, ?_⟩
        rw [beq_iff_eq]
        exact (pow_mod_eq_sub_one_iff w _ n (by omega)).mpr h

/-! ### Helper lemmas for the cipher loops -/

lemma decrypt_bits_cons_none (p y : ℕ) (ys : List ℕ) (h : jacobi y p = none) :
    decrypt_bits p (y :: ys) = none := by
  unfold decrypt_bits
  rw [h]

lemma decrypt_bits_cons_rec_none (p y : ℕ) (ys : List ℕ) (j : ℤ)
    (hj : jacobi y p = some j) (hrec : decrypt_bits p ys = none) :
    decrypt_bits p (y :: ys) = none := by
  unfold decrypt_bits
  rw [hj, hrec]

lemma decrypt_bits_cons_some (p y : ℕ) (ys : List ℕ) (j : ℤ) (rest : List ℕ)
    (hj : jacobi y p = some j) (hrec : decrypt_bits p ys = some rest) :
    decrypt_bits p (y :: ys) =
      if j = 1 then some (0 :: rest)
      else if j = -1 then some (1 :: rest)
      else some rest := by
  unfold decrypt_bits
  rw [hj, hrec]

/-- For a prime modulus, a residue that is not a multiple of `p` has Jacobi
symbol `1` or `-1`. -/
lemma jacobiSym_prime_ne_zero (p y : ℕ) (hp : p.Prime) (hy : y % p ≠ 0) :
    jacobiSym (y : ℤ) p = 1 ∨ jacobiSym (y : ℤ) p = -1 := by
  apply jacobiSym.eq_one_or_neg_one
  have hnd : ¬ p ∣ y := by
    intro hd
    obtain ⟨k, rfl⟩ := hd
    exact hy (Nat.mul_mod_right p k)
  have hcop : Nat.Coprime p y := (Nat.Prime.coprime_iff_not_dvd hp).mpr hnd
  rw [Int.gcd_natCast_natCast]
  exact Nat.coprime_comm.mp hcop

/-- Every element of the encrypted sequence is a residue strictly below `n`. -/
lemma encrypt_bits_mem (n z : ℕ) (hn : 0 < n) :
    ∀ (xs as : List ℕ), ∀ y ∈ encrypt_bits n z xs as, y < n := by
  intro xs
  induction xs with
  | nil => intro as y hy; simp [encrypt_bits] at hy
  | cons x xs ih =>
    intro as y hy
    cases as with
    | nil => simp [encrypt_bits] at hy
    | cons a as =>
      simp only [encrypt_bits, List.zipWith_cons_cons, List.mem_cons] at hy
      rcases hy with h | h
      · subst h
        exact Nat.mod_lt _ hn
      · exact ih as y h

/-! ### Claim C6: trichotomy, gcd characterisation and Legendre agreement -/

/-- C6. For every odd `p > 1` and every `a` with `0 < a < p`, the program's
`jacobi a p` returns the Jacobi symbol of `a` over `p`; that value lies in
`{-1, 0, 1}`, is `0` exactly when `gcd a p > 1`, and equals the Legendre
symbol whenever `p` is prime. -/
theorem jacobi_spec_c6 (a p : ℕ) (hp1 : 1 < p) (hp2 : p % 2 = 1)
    (ha0 : 0 < a) (hap : a < p) :
    jacobi a p = some (jacobiSym (a : ℤ) p) ∧
    (jacobiSym (a : ℤ) p = 0 ∨ jacobiSym (a : ℤ) p = 1 ∨
      jacobiSym (a : ℤ) p = -1) ∧
    (jacobiSym (a : ℤ) p = 0 ↔ 1 < Nat.gcd a p) ∧
    (∀ hpp : p.Prime, jacobiSym (a : ℤ) p = @legendreSym p ⟨hpp⟩ (a : ℤ)) := by
  have hamod : a % p = a := Nat.mod_eq_of_lt hap
  have ha : a % p ≠ 0 := by omega
  refine ⟨jacobi_eq_jacobiSym a p hp1 hp2 ha, jacobiSym.trichotomy (a : ℤ) p,
    ?_, ?_⟩
  · constructor
    · intro h0
      rw [jacobiSym.eq_zero_iff] at h0
      have hg := h0.2
      rw [Int.gcd_natCast_natCast] at hg
      have hpos : 0 < Nat.gcd a p := Nat.gcd_pos_of_pos_right a (by omega)
      omega
    · intro hg
      rw [jacobiSym.eq_zero_iff]
      refine ⟨by omega, ?_⟩
      rw [Int.gcd_natCast_natCast]
      omega
  · intro hpp
    exact (@jacobiSym.legendreSym.to_jacobiSym p ⟨hpp⟩ (a : ℤ)).symm

/-- Witness for C6 at `a = 2`, `p = 5`. -/
theorem jacobi_spec_c6_witness :
    jacobi 2 5 = some (jacobiSym (2 : ℤ) 5) ∧
    (jacobiSym (2 : ℤ) 5 = 0 ∨ jacobiSym (2 : ℤ) 5 = 1 ∨
      jacobiSym (2 : ℤ) 5 = -1) ∧
    (jacobiSym (2 : ℤ) 5 = 0 ↔ 1 < Nat.gcd 2 5) ∧
    (∀ hpp : Nat.Prime 5, jacobiSym (2 : ℤ) 5 = @legendreSym 5 ⟨hpp⟩ (2 : ℤ)) :=
  jacobi_spec_c6 2 5 (by decide) (by decide) (by decide) (by decide)

/-! ### Claim C7: multiplicativity of `jacobi` -/

/-- C7. For odd `p > 1` and `0 < a, b < p` with `a * b` not a multiple of `p`,
`jacobi (a * b % p) p` is the product of `jacobi a p` and `jacobi b p`. -/
theorem jacobi_mul_c7 (a b p : ℕ) (hp1 : 1 < p) (hp2 : p % 2 = 1)
    (ha0 : 0 < a) (hap : a < p) (hb0 : 0 < b) (hbp : b < p)
    (hab : a * b % p ≠ 0) (x y : ℤ)
    (hx : jacobi a p = some x) (hy : jacobi b p = some y) :
    jacobi (a * b % p) p = some (x * y) := by
  have hamod : a % p = a := Nat.mod_eq_of_lt hap
  have hbmod : b % p = b := Nat.mod_eq_of_lt hbp
  rw [jacobi_eq_jacobiSym a p hp1 hp2 (by omega)] at hx
  rw [jacobi_eq_jacobiSym b p hp1 hp2 (by omega)] at hy
  have hxx := Option.some_inj.mp hx
  have hyy := Option.some_inj.mp hy
  subst hxx hyy
  have hmm : a * b % p % p = a * b % p := Nat.mod_mod_of_dvd _ dvd_rfl
  rw [jacobi_eq_jacobiSym (a * b % p) p hp1 hp2 (by rw [hmm]; exact hab)]
  congr 1
  have hcast : ((a * b % p : ℕ) : ℤ) = ((a * b : ℕ) : ℤ) % (p : ℤ) := by
    push_cast
    ring
  rw [hcast, ← jacobiSym.mod_left, Nat.cast_mul, jacobiSym.mul_left]

/-- Witness for C7 at `a = 2`, `b = 3`, `p = 5`. -/
theorem jacobi_mul_c7_witness : jacobi (2 * 3 % 5) 5 = some (-1 * -1) :=
  jacobi_mul_c7 2 3 5 (by decide) (by decide) (by decide) (by decide)
    (by decide) (by decide) (by decide) (-1) (-1) (by decide) (by decide)

/-! ### Claim C10: `jacobi` reduces its argument before the assertion -/

/-- C10. `jacobi` reduces `a` modulo `p` before checking the assertion, so for
odd `p > 1` and `a` not a multiple of `p` (also `a ≥ p`) the call succeeds
and agrees with `jacobi (a % p) p`; the assertion fails exactly when `p` is
even, `p = 1`, or `a` is a multiple of `p`. -/
theorem jacobi_reduce_c10 (a p : ℕ) :
    (1 < p → p % 2 = 1 → a % p ≠ 0 →
      jacobi a p = jacobi (a % p) p ∧ (jacobi a p).isSome = true) ∧
    (jacobi a p = none ↔ p % 2 = 0 ∨ p = 1 ∨ a % p = 0) := by
  have hmm : a % p % p = a % p := Nat.mod_mod_of_dvd a dvd_rfl
  constructor
  · intro hp1 hp2 ha
    have hr : a % p < p := Nat.mod_lt a (by omega)
    constructor
    · unfold jacobi
      rw [hmm]
    · unfold jacobi
      rw [if_pos ⟨hr, by omega, hp2⟩]
      rfl
  · unfold jacobi
    by_cases h : p > a % p ∧ a % p > 0 ∧ p % 2 = 1
    · rw [if_pos h]
      refine iff_of_false (by simp) ?_
      rintro (h2 | h1 | h0)
      · omega
      · subst h1
        simp [Nat.mod_one] at h
      · omega
    · rw [if_neg h]
      refine iff_of_true rfl ?_
      by_cases hp0 : p = 0
      · subst hp0
        left
        rfl
      · have hr : a % p < p := Nat.mod_lt a (by omega)
        by_cases hodd : p % 2 = 1
        · right
          right
          by_contra hne
          exact h ⟨hr, by omega, hodd⟩
        · left
          omega

/-- Witness for C10 at `a = 7 ≥ p = 3`. -/
theorem jacobi_reduce_c10_witness :
    jacobi 7 3 = jacobi (7 % 3) 3 ∧ (jacobi 7 3).isSome = true :=
  (jacobi_reduce_c10 7 3).1 (by decide) (by decide) (by decide)

/-! ### Claim C8: Miller–Rabin never rejects a prime -/

/-- C8. For every candidate `> 2` and every choice of the 20 round testers in
`[2, candidate)`: if the candidate is prime, `test_MillerRabin` returns
`True`; consequently a `False` return implies the candidate is composite. -/
theorem test_MillerRabin_c8 (candidate : ℕ) (ws : List ℕ) (hc : 2 < candidate)
    (hws : mr_draws candidate ws) :
    (candidate.Prime → test_MillerRabin candidate ws = true) ∧
    (test_MillerRabin candidate ws = false → ¬ candidate.Prime) := by
  have main : candidate.Prime → test_MillerRabin candidate ws = true := by
    intro hp
    unfold test_MillerRabin
    rw [List.all_eq_true]
    intro w hw
    rw [is_composite_false_of_prime candidate hp hc w (hws.2 w hw).1
      (hws.2 w hw).2]
    rfl
  refine ⟨main, fun hf hp => ?_⟩
  rw [main hp] at hf
  simp at hf

/-- Witness for C8 at `candidate = 5` with all 20 round testers equal to 2. -/
theorem test_MillerRabin_c8_witness :
    (Nat.Prime 5 → test_MillerRabin 5 (List.replicate 20 2) = true) ∧
    (test_MillerRabin 5 (List.replicate 20 2) = false → ¬ Nat.Prime 5) :=
  test_MillerRabin_c8 5 (List.replicate 20 2) (by decide) (by decide)

/-! ### Claim C3: decryption maps `±1` to bits and surfaces symbol-0 failures -/

/-- C3. For a prime private key component `p > 2`: when no residue is a
multiple of `p`, the decryption loop returns a bit sequence of the same
length as the ciphertext, with Jacobi symbol `+1` mapped to bit 0 and `-1`
to bit 1; a residue whose Jacobi symbol over `p` is `0` (a multiple of `p`)
makes decryption fail (`none`, the `AssertionError` inside `jacobi`) rather
than being skipped or coerced to a default bit. -/
theorem decrypt_bits_c3 (p : ℕ) (hpp : p.Prime) (hp2 : 2 < p) (ys : List ℕ) :
    ((∀ y ∈ ys, y % p ≠ 0) →
      ∃ bs, decrypt_bits p ys = some bs ∧ bs.length = ys.length ∧
        bs = ys.map fun y => if jacobiSym (y : ℤ) p = 1 then 0 else 1) ∧
    ((∃ y ∈ ys, y % p = 0) → decrypt_bits p ys = none) := by
  have hp1 : 1 < p := by omega
  have hodd : p % 2 = 1 := Nat.odd_iff.mp (hpp.odd_of_ne_two (by omega))
  induction ys with
  | nil =>
    refine ⟨fun _ => ⟨[], rfl, rfl, rfl⟩, ?_⟩
    rintro ⟨y, hy, -⟩
    simp at hy
  | cons y ys ih =>
    constructor
    · intro h
      have hy : y % p ≠ 0 := h y (List.mem_cons_self y ys)
      have hjac : jacobi y p = some (jacobiSym (y : ℤ) p) :=
        jacobi_eq_jacobiSym y p hp1 hodd hy
      obtain ⟨bs, hbs, hlen, hmap⟩ :=
        ih.1 (fun z hz => h z (List.mem_cons_of_mem y hz))
      rcases jacobiSym_prime_ne_zero p y hpp hy with h1 | h1
      · refine ⟨0 :: bs, ?_, by simp [hlen], by simp [hmap, h1]⟩
        rw [decrypt_bits_cons_some p y ys _ bs hjac hbs, if_pos h1]
      · refine ⟨1 :: bs, ?_, by simp [hlen], by simp [hmap, h1]⟩
        rw [decrypt_bits_cons_some p y ys _ bs hjac hbs,
          if_neg (by simp [h1]), if_pos h1]
    · rintro ⟨z, hz, hz0⟩
      rcases List.mem_cons.mp hz with rfl | hz'
      · apply decrypt_bits_cons_none
        unfold jacobi
        rw [if_neg]
        rintro ⟨-, hgt, -⟩
        omega
      · have hnone := ih.2 ⟨z, hz', hz0⟩
        cases hjy : jacobi y p with
        | none => exact decrypt_bits_cons_none p y ys hjy
        | some j => exact decrypt_bits_cons_rec_none p y ys j hjy hnone

/-- Witness for C3 at `p = 3`, ciphertext `[1, 2]`. -/
theorem decrypt_bits_c3_witness :
    ((∀ y ∈ [1, 2], y % 3 ≠ 0) →
      ∃ bs, decrypt_bits 3 [1, 2] = some bs ∧ bs.length = [1, 2].length ∧
        bs = [1, 2].map fun y => if jacobiSym (y : ℤ) 3 = 1 then 0 else 1) ∧
    ((∃ y ∈ [1, 2], y % 3 = 0) → decrypt_bits 3 [1, 2] = none) :=
  decrypt_bits_c3 3 (by norm_num) (by decide) [1, 2]

/-! ### Claim C5 (corrected): `get_prime` output range and the sieve's
actual sampling range -/

/-- Counterexample to C5 as stated: the spec says the sieve samples uniformly
from the half-open range `[2^(L-1), 2^L)`, but at `L = 16` the value
`65535 = 2^16 - 1` lies in that range and can never be drawn (`randrange`'s
upper bound `2^16 - 1` is exclusive; `2^15` itself is likewise excluded). -/
theorem get_lowlevel_prime_draws_c5_counterexample :
    (2 ^ (16 - 1) ≤ 65535 ∧ 65535 < 2 ^ 16) ∧
      ¬ get_lowlevel_prime_draws 16 65535 := by decide

/-- C5 (amended). For `L ≥ 16`: the sieve draws candidates exactly from
`[2^(L-1) + 1, 2^L - 1)`, a proper sub-range of the claimed
`[2^(L-1), 2^L)`; and every value `get_prime` can return when the global
`prime_len` is `L` is odd and lies in `[2^(L-1), 2^L)`. -/
theorem get_prime_c5 (L : ℕ) (hL : 16 ≤ L) :
    (∀ c, get_lowlevel_prime_draws L c ↔
      2 ^ (L - 1) + 1 ≤ c ∧ c < 2 ^ L - 1) ∧
    (∀ pc, get_prime_outputs L pc →
      pc % 2 = 1 ∧ 2 ^ (L - 1) ≤ pc ∧ pc < 2 ^ L) := by
  refine ⟨fun c => Iff.rfl, ?_⟩
  rintro pc ⟨⟨⟨hlo, hhi⟩, hsieve⟩, -⟩
  have h16 : (16 : ℕ) ≤ 2 ^ (L - 1) := by
    calc (16 : ℕ) = 2 ^ 4 := by norm_num
      _ ≤ 2 ^ (L - 1) := Nat.pow_le_pow_right (by norm_num) (by omega)
  refine ⟨?_, by omega, by omega⟩
  by_contra hodd
  apply hsieve
  refine ⟨2, by decide, by omega, ?_⟩
  have h4 : (2 : ℕ) ^ 2 = 4 := by norm_num
  omega

set_option maxRecDepth 4000 in
/-- Witness for C5 at `L = 16` with the prime output `32771 = 2^15 + 3`,
reached by the sieve and accepted by `test_MillerRabin` when all 20 round
testers are drawn equal to 2. -/
theorem get_prime_c5_witness :
    get_prime_outputs 16 32771 ∧
      (32771 % 2 = 1 ∧ 2 ^ (16 - 1) ≤ 32771 ∧ 32771 < 2 ^ 16) := by
  have hmr : test_MillerRabin 32771 (List.replicate 20 2) = true := by
    unfold test_MillerRabin
    rw [List.all_eq_true]
    intro w hw
    have hw2 : w = 2 := List.eq_of_mem_replicate hw
    subst hw2
    rw [is_composite_false_of_prime 32771 (by norm_num) (by norm_num) 2
      (by norm_num) (by norm_num)]
    rfl
  have h : get_prime_outputs 16 32771 :=
    ⟨⟨by decide, by decide⟩, List.replicate 20 2, by decide, hmr⟩
  exact ⟨h, (get_prime_c5 16 (by decide)).2 32771 h⟩

/-! ### Claim C9: the divisor-squared guard is inert for large candidates -/

/-- C9. For every candidate exceeding the square of every table entry, the
sieve with the divisor-squared guard and the unguarded trial-division sieve
make the same accept/reject decision. -/
theorem sieve_guard_c9 (pc : ℕ)
    (h : ∀ d ∈ first_primes_list, d ^ 2 < pc) :
    sieve_rejects pc ↔ sieve_rejects_unguarded pc := by
  constructor
  · rintro ⟨d, hd, hdvd, -⟩
    exact ⟨d, hd, hdvd⟩
  · rintro ⟨d, hd, hdvd⟩
    exact ⟨d, hd, hdvd, le_of_lt (h d hd)⟩

set_option maxRecDepth 4000 in
/-- Witness for C9 at `pc = 4000000 > 1999^2`. -/
theorem sieve_guard_c9_witness :
    (∀ d ∈ first_primes_list, d ^ 2 < 4000000) ∧
      (sieve_rejects 4000000 ↔ sieve_rejects_unguarded 4000000) := by
  have h : ∀ d ∈ first_primes_list, d ^ 2 < 4000000 := by decide
  exact ⟨h, sieve_guard_c9 4000000 h⟩

/-! ### Claim C4 (corrected): the masking draw is from the closed range
`[1, n]`, and ciphertext residues lie in `[0, n)` -/

/-- Counterexample to C4 as stated: the claim says the mask is drawn from the
half-open range `[1, n)`, but `random.randint(1, n)` includes `n`; at
`n = 209` (the spec's own test modulus) the value `209` is drawable yet
outside `[1, 209)`. -/
theorem mask_draws_c4_counterexample :
    mask_draws 209 209 ∧ ¬ (1 ≤ 209 ∧ 209 < 209) := by decide

/-- C4 (amended). For `n > 0`: the mask is drawn exactly from the closed
range `[1, n]`, each bit is encrypted as `z ^ x * a ^ 2 mod n`, and every
emitted ciphertext residue is strictly below `n`. -/
theorem encrypt_c4 (n z : ℕ) (hn : 0 < n) :
    (∀ a, mask_draws n a ↔ 1 ≤ a ∧ a ≤ n) ∧
    (∀ x a, encrypt_bit n z x a = z ^ x * a ^ 2 % n) ∧
    (∀ xs as, ∀ y ∈ encrypt_bits n z xs as, y < n) :=
  ⟨fun _ => Iff.rfl, fun _ _ => rfl, fun xs as => encrypt_bits_mem n z hn xs as⟩

/-- Witness for C4 at the spec's test modulus `n = 209 = 11 * 19`, including
the extreme drawable mask `a = n`. -/
theorem encrypt_c4_witness :
    (∀ a, mask_draws 209 a ↔ 1 ≤ a ∧ a ≤ 209) ∧
    (∀ x a, encrypt_bit 209 10 x a = 10 ^ x * a ^ 2 % 209) ∧
    (∀ xs as, ∀ y ∈ encrypt_bits 209 10 xs as, y < 209) :=
  encrypt_c4 209 10 (by decide)

/-! ### Claim C1 (code bug): the round trip fails because `z` is sampled from
the fixed triple `(1357, 23, 59)`, not from the key's own `(n, p, q)` -/

/-- C1. Evaluation of the cipher at a failing instance: `z = 10` is a value
the program's actual call `generate_pseudo_square(1357, 23, 59)` can return
(it is drawable and satisfies all three acceptance conditions), yet for the
key primes `p = 13`, `q = 17` (modulus `n = 221`) and the drawable mask
`a = 1`, encrypting the bit sequence `[1]` and decrypting with `p` yields
`[0]`, not `[1]`: the round trip of the claim fails on the code. -/
theorem roundtrip_c1_fails :
    Nat.Prime 13 ∧ Nat.Prime 17 ∧
    generate_pseudo_square_outputs 1357 23 59 10 ∧
    mask_draws (13 * 17) 1 ∧
    decrypt_bits 13 (encrypt_bits (13 * 17) 10 [1] [1]) = some [0] :=
  ⟨by norm_num, by norm_num, by decide, by decide, by decide⟩

/-! ### Claim C2 (code bug): `z` is not derived from the key's `(n, p, q)` -/

/-- C2. The program derives `z` from the constant triple `(1357, 23, 59)`
(src/main.py line 135) irrespective of the generated key primes: `z = 10` is
a possible output of that call, and with respect to a different prime `p`
(here 13, standing in for a freshly generated key prime) its `jacobi` value
is `+1`, not the `-1` the claim requires of the key's own primes. -/
theorem pseudo_square_c2_not_key_tied :
    generate_pseudo_square_outputs 1357 23 59 10 ∧
    Nat.Prime 13 ∧ jacobi 10 13 = some 1 :=
  ⟨by decide, by norm_num, by decide⟩

end GM
